import Mathlib

/-!
Verification of the label-index and filtering engine of `kubectl-view-labels`.

The Go sources embedded here:
  * `pkg/model/model.go` — `filterNodeInfos`, `updateTotalLabelKeys`,
    `InitialModel`, `Update`, `View`, the watch handlers (`AddFunc`,
    `DeleteFunc`, `UpdateFunc`), `uniqueKeys`, `contains`, `hash`,
    `hashToColorCode`.
  * `labelkeys.go` / `labelvalue.go` (package `model`) — `LabelKey`,
    `LabelValue`, `WithName`, `WithKey`, `Render`, `LabelKeyNames`,
    `FuzzyFindLabelKeys`.

Go maps (`node.Labels`, `NodeInfos`) are embedded as association lists;
the code only observes maps through indexing (`m[k]`, zero value on a
missing key), writes, and an order-insensitive "does any key match" scan,
so association-list lookup is an exact model. Go slices are Lean lists.
32-bit unsigned arithmetic is `Nat` reduced `% 2 ^ 32`.

External libraries the engine calls, absent from this repository, are
embedded from their published sources:
  * `lithammer/fuzzysearch` `fuzzy.Match(source, target)` — true iff the
    runes of `source` are a subsequence of the runes of `target`
    (case-sensitive); modelled by the greedy scan `isSubseqChars`.
  * `charmbracelet/bubbles` `paginator` — `SetTotalPages` sets
    `TotalPages = ceil(items/PerPage)` when `items >= 1` (it does not
    touch `Page`, and leaves `TotalPages` unchanged when `items < 1`);
    `GetSliceBounds(len) = (Page*PerPage, min(Page*PerPage+PerPage, len))`;
    `PrevPage` decrements `Page` when positive; `NextPage` increments
    `Page` unless `Page == TotalPages-1`. `paginator.New()` starts at
    `Page = 0`, `TotalPages = 1`; `InitialModel` sets `PerPage = 10`.
  * `charmbracelet/bubbles` `textinput` — modelled by its visible value:
    a text-editing message carries the value the widget holds after the
    edit, which is all `Update` reads from it (`m.TextInput.Value()`).

Terminal styling (`lipgloss`) wraps a text payload in ANSI escape
sequences determined by the style and the payload; renders here produce
the text payload, and styles are carried as the foreground color-code
string the source derives from the key name (`hashToColorCode(hash(name))`),
so equal embedded values imply equal styled output.
-/

set_option maxRecDepth 4000

namespace ViewLabels

/-! ## Hashing and colors (`hash`, `hashToColorCode`) -/

/-- Model of Go `hash(s string) uint32`: FNV-1a over the UTF-8 bytes of `s`,
as 32-bit arithmetic on `Nat`. -/
def fnvHash (s : String) : Nat :=
  s.toUTF8.toList.foldl (fun h b => ((Nat.xor h b.toNat) * 16777619) % 2 ^ 32) 2166136261

/-- Model of a lower-case hexadecimal digit. -/
def hexDigit (n : Nat) : Char :=
  if n < 10 then Char.ofNat (48 + n) else Char.ofNat (87 + n)

/-- Model of the `%06x` formatting of a number below `2 ^ 24`: six
zero-padded lower-case hex digits. -/
def hex6 (n : Nat) : String :=
  String.mk ((List.range 6).map (fun i => hexDigit (n / 16 ^ (5 - i) % 16)))

/-- Model of Go `hashToColorCode(hash uint32) string`:
`fmt.Sprintf("#%06x", hash&0x00ffffff)`. -/
def hashToColorCode (h : Nat) : String :=
  "#" ++ hex6 (h % 2 ^ 24)

/-! ## LabelKey and LabelValue -/

/-- Model of `LabelKey { Name string; Style lipgloss.Style }`; the style is
carried as its foreground color code. -/
structure LabelKey where
  Name : String
  Style : String
deriving DecidableEq

/-- Model of `NewLabelKey()`: the zero `LabelKey`. -/
def NewLabelKey : LabelKey := { Name := "", Style := "" }

/-- Model of `(*LabelKey).WithName`: sets the name and the style derived
from `hashToColorCode(hash(name))`. -/
def LabelKey.WithName (_k : LabelKey) (name : String) : LabelKey :=
  { Name := name, Style := hashToColorCode (fnvHash name) }

/-- Model of `LabelValue { Name string; Key LabelKey; Style lipgloss.Style }`. -/
structure LabelValue where
  Name : String
  Key : LabelKey
  Style : String
deriving DecidableEq

/-- Model of `NewLabelValue()`: the zero `LabelValue`. -/
def NewLabelValue : LabelValue := { Name := "", Key := NewLabelKey, Style := "" }

/-- Model of `(*LabelValue).WithName`. -/
def LabelValue.WithName (v : LabelValue) (name : String) : LabelValue :=
  { v with Name := name }

/-- Model of `(*LabelValue).WithKey`: stores the key and copies its style. -/
def LabelValue.WithKey (v : LabelValue) (key : LabelKey) : LabelValue :=
  { v with Key := key, Style := key.Style }

/-- Model of `(*LabelValue).Render`: the text payload is `"<None>"` when the
value is empty (the source additionally styles it italic), otherwise the
value itself. -/
def LabelValue.Render (v : LabelValue) : String :=
  if v.Name = "" then "<None>" else v.Name

/-- Model of `LabelKeyNames(keys []LabelKey) []string`. -/
def LabelKeyNames (keys : List LabelKey) : List String :=
  keys.map (fun key => key.Name)

/-- Model of Go helper `contains(input []string, str string) bool`. -/
def stringsContain (input : List String) (str : String) : Bool :=
  input.any (fun s => s = str)

/-! ## Fuzzy matching (`fuzzy.Match` of lithammer/fuzzysearch) -/

/-- Model of the greedy rune scan inside `fuzzy.Match`: each rune of the
source is searched for in the remaining target; matching consumes the
target up to and including the matched rune. -/
def isSubseqChars : List Char → List Char → Bool
  | [], _ => true
  | _ :: _, [] => false
  | a :: s, b :: t => if a = b then isSubseqChars s t else isSubseqChars (a :: s) t

/-- Model of `fuzzy.Match(source, target)`: case-sensitive rune-subsequence
matching. -/
def fuzzyMatch (source target : String) : Bool :=
  isSubseqChars source.toList target.toList

/-- Model of `FuzzyFindLabelKeys(input string, keys []LabelKey) []LabelKey`:
keys whose name fuzzy-matches the input, in catalogue order. -/
def FuzzyFindLabelKeys (input : String) (keys : List LabelKey) : List LabelKey :=
  keys.filter (fun key => fuzzyMatch input key.Name)

/-! ## Nodes and the projection (`NodeInfos`, `filterNodeInfos`) -/

/-- Model of a `v1.Node` as the engine sees it: a name and a label map
(association list with the map's unique-key discipline assumed where
needed). -/
structure Node where
  Name : String
  Labels : List (String × String)
deriving DecidableEq

/-- Model of `NodeInfos = map[string][]LabelValue` as an association list;
the code observes it only through indexing and iteration over entries. -/
abbrev NodeInfos := List (String × List LabelValue)

/-- Model of the Go map write `infos[name] = append(infos[name], vals...)`:
extend the entry for `name`, creating it when absent. -/
def appendEntry (infos : NodeInfos) (name : String) (vals : List LabelValue) : NodeInfos :=
  match infos with
  | [] => [(name, vals)]
  | (n, vs) :: rest =>
      if n = name then (n, vs ++ vals) :: rest else (n, vs) :: appendEntry rest name vals

/-- Model of the subterm
`NewLabelValue().WithName(node.Labels[key.Name]).WithKey(key)` of
`filterNodeInfos`: Go map indexing yields the zero string for a missing
key. -/
def nodeLabelValue (labels : List (String × String)) (key : LabelKey) : LabelValue :=
  (NewLabelValue.WithName ((labels.lookup key.Name).getD "")).WithKey key

/-- Model of the any-match gate of `filterNodeInfos`: does the node have any
label whose key is among the filtered key names? The Go code scans the
label map in arbitrary order and breaks at the first hit; only existence is
observable. -/
def nodeMatches (keys : List LabelKey) (node : Node) : Bool :=
  node.Labels.any (fun kv => stringsContain (LabelKeyNames keys) kv.1)

/-- Model of `(*model).filterNodeInfos` / `FilterNodeInfos`: for each node
having at least one label among the filtered keys, append one `LabelValue`
per filtered key, in filtered-key order, into the node's entry. -/
def filterNodeInfos (keys : List LabelKey) (nodes : List Node) : NodeInfos :=
  nodes.foldl
    (fun acc node =>
      if nodeMatches keys node then
        appendEntry acc node.Name (keys.map (fun key => nodeLabelValue node.Labels key))
      else acc)
    []

/-! ## Key catalogue (`uniqueKeys`, `updateTotalLabelKeys`) -/

/-- Model of the loop body of `uniqueKeys` with its `seen` set made
explicit: keep the first occurrence of each name. -/
def uniqueKeysAux (seen : List String) : List LabelKey → List LabelKey
  | [] => []
  | key :: rest =>
      if key.Name ∈ seen then uniqueKeysAux seen rest
      else key :: uniqueKeysAux (key.Name :: seen) rest

/-- Model of Go `uniqueKeys(input []LabelKey) []LabelKey`. -/
def uniqueKeys (input : List LabelKey) : List LabelKey :=
  uniqueKeysAux [] input

/-- Model of Go's `<` on strings: lexicographic comparison of the
character sequences (bytewise UTF-8 comparison and codepoint comparison
order strings identically). -/
def charListLtb : List Char → List Char → Bool
  | [], [] => false
  | [], _ :: _ => true
  | _ :: _, [] => false
  | a :: as, b :: bs => if a < b then true else if b < a then false else charListLtb as bs

theorem char_eq_of_not_lt {x y : Char} (h1 : ¬ x < y) (h2 : ¬ y < x) : x = y :=
  ((lt_trichotomy x y).resolve_left h1).resolve_right h2

theorem charListLtb_irrefl : ∀ l, charListLtb l l = false := by
  intro l
  induction l with
  | nil => rfl
  | cons a as ih => simp [charListLtb, lt_irrefl, ih]

theorem charListLtb_asymm :
    ∀ l₁ l₂, charListLtb l₁ l₂ = true → charListLtb l₂ l₁ = false := by
  intro l₁
  induction l₁ with
  | nil =>
      intro l₂ h
      cases l₂ with
      | nil => exact absurd h (by simp [charListLtb])
      | cons b bs => rfl
  | cons a as ih =>
      intro l₂ h
      cases l₂ with
      | nil => exact absurd h (by simp [charListLtb])
      | cons b bs =>
          rw [charListLtb] at h ⊢
          by_cases hab : a < b
          · rw [if_neg (asymm hab), if_pos hab]
          · rw [if_neg hab] at h
            by_cases hba : b < a
            · rw [if_pos hba] at h
              exact absurd h (by simp)
            · rw [if_neg hba] at h
              rw [if_neg hba, if_neg hab]
              exact ih bs h

theorem charListLtb_trans :
    ∀ l₁ l₂ l₃, charListLtb l₁ l₂ = true → charListLtb l₂ l₃ = true →
      charListLtb l₁ l₃ = true := by
  intro l₁
  induction l₁ with
  | nil =>
      intro l₂ l₃ h₁ h₂
      cases l₂ with
      | nil => exact absurd h₁ (by simp [charListLtb])
      | cons b bs =>
          cases l₃ with
          | nil => exact absurd h₂ (by simp [charListLtb])
          | cons c cs => rfl
  | cons a as ih =>
      intro l₂ l₃ h₁ h₂
      cases l₂ with
      | nil => exact absurd h₁ (by simp [charListLtb])
      | cons b bs =>
          cases l₃ with
          | nil => exact absurd h₂ (by simp [charListLtb])
          | cons c cs =>
              rw [charListLtb] at h₁ h₂ ⊢
              by_cases hab : a < b
              · by_cases hbc : b < c
                · rw [if_pos (lt_trans hab hbc)]
                · rw [if_neg hbc] at h₂
                  by_cases hcb : c < b
                  · rw [if_pos hcb] at h₂
                    exact absurd h₂ (by simp)
                  · rw [if_pos ((char_eq_of_not_lt hbc hcb) ▸ hab)]
              · rw [if_neg hab] at h₁
                by_cases hba : b < a
                · rw [if_pos hba] at h₁
                  exact absurd h₁ (by simp)
                · rw [if_neg hba] at h₁
                  have hae : a = b := char_eq_of_not_lt hab hba
                  by_cases hbc : b < c
                  · rw [if_pos (hae ▸ hbc)]
                  · rw [if_neg hbc] at h₂
                    by_cases hcb : c < b
                    · rw [if_pos hcb] at h₂
                      exact absurd h₂ (by simp)
                    · rw [if_neg hcb] at h₂
                      have hbe : b = c := char_eq_of_not_lt hbc hcb
                      have hac : ¬ a < c := by rw [hae, hbe]; exact lt_irrefl c
                      have hca : ¬ c < a := by rw [hae, hbe]; exact lt_irrefl c
                      rw [if_neg hac, if_neg hca]
                      exact ih bs cs h₁ h₂

theorem charListLtb_eq_of_not :
    ∀ l₁ l₂, charListLtb l₁ l₂ = false → charListLtb l₂ l₁ = false → l₁ = l₂ := by
  intro l₁
  induction l₁ with
  | nil =>
      intro l₂ h₁ _
      cases l₂ with
      | nil => rfl
      | cons b bs => exact absurd h₁ (by simp [charListLtb])
  | cons a as ih =>
      intro l₂ h₁ h₂
      cases l₂ with
      | nil => exact absurd h₂ (by simp [charListLtb])
      | cons b bs =>
          rw [charListLtb] at h₁ h₂
          by_cases hab : a < b
          · rw [if_pos hab] at h₁
            exact absurd h₁ (by simp)
          · by_cases hba : b < a
            · rw [if_neg hab, if_pos hba] at h₁
              rw [if_pos hba] at h₂
              exact absurd h₂ (by simp)
            · rw [if_neg hab, if_neg hba] at h₁
              rw [if_neg hba, if_neg hab] at h₂
              rw [char_eq_of_not_lt hab hba, ih bs h₁ h₂]

theorem string_eq_of_data_eq : ∀ {a b : String}, a.data = b.data → a = b := by
  intro a b h
  cases a
  cases b
  exact congrArg String.mk h

/-- Ordering used by `sort.Slice(labelKeys, func(i, j) { Name < Name })`,
as the reflexive complement `¬ (b.Name < a.Name)` of Go's strict string
comparison; after `uniqueKeys` all names are distinct, so sorting by it
yields the unique permutation ordered by Go's comparator. -/
def keyLE (a b : LabelKey) : Prop := charListLtb b.Name.data a.Name.data = false

instance : DecidableRel keyLE :=
  fun a b => inferInstanceAs (Decidable (charListLtb b.Name.data a.Name.data = false))

instance : IsTotal LabelKey keyLE := by
  refine ⟨fun a b => ?_⟩
  cases h : charListLtb b.Name.data a.Name.data with
  | false => exact Or.inl h
  | true => exact Or.inr (charListLtb_asymm _ _ h)

instance : IsTrans LabelKey keyLE := by
  refine ⟨fun a b c hab hbc => ?_⟩
  cases hca : charListLtb c.Name.data a.Name.data with
  | false => exact hca
  | true =>
      exfalso
      cases hbc2 : charListLtb b.Name.data c.Name.data with
      | true =>
          have hba := charListLtb_trans _ _ _ hbc2 hca
          rw [hab] at hba
          exact Bool.noConfusion hba
      | false =>
          have he := charListLtb_eq_of_not _ _ hbc2 hbc
          rw [← he] at hca
          rw [hab] at hca
          exact Bool.noConfusion hca

/-- Model of `(*model).updateTotalLabelKeys` / `updateLabelKeys`: collect a
`LabelKey` for every label key of every node, de-duplicate keeping first
occurrences, and sort by name. Go's `sort.Slice` returns the unique sorted
permutation because the names are distinct after `uniqueKeys`; insertion
sort computes that same permutation. -/
def updateTotalLabelKeys (nodes : List Node) : List LabelKey :=
  List.insertionSort keyLE
    (uniqueKeys (nodes.flatMap (fun node => node.Labels.map (fun kv => NewLabelKey.WithName kv.1))))

/-! ## Watch handlers (`AddFunc`, `DeleteFunc`, `UpdateFunc`) -/

/-- Model of `AddFunc`: `m.Nodes.Items = append(m.Nodes.Items, *node)` —
the node is appended unconditionally (no lookup of an existing name). -/
def AddFunc (nodes : List Node) (node : Node) : List Node :=
  nodes ++ [node]

/-- Model of the `DeleteFunc` loop: remove the first stored node whose name
matches, leave the list unchanged when none does. -/
def DeleteFunc (nodes : List Node) (node : Node) : List Node :=
  match nodes with
  | [] => []
  | n :: rest => if n.Name = node.Name then rest else n :: DeleteFunc rest node

/-- Model of the `UpdateFunc` loop: replace the first stored node whose name
matches, leave the list unchanged when none does. -/
def UpdateFunc (nodes : List Node) (node : Node) : List Node :=
  match nodes with
  | [] => []
  | n :: rest => if n.Name = node.Name then node :: rest else n :: UpdateFunc rest node

/-! ## Interaction loop (`InitialModel`, `Update`, `View` bounds) -/

/-- Model of the bubbles `paginator.Model` state the engine uses. -/
structure Paginator where
  Page : Nat
  PerPage : Nat
  TotalPages : Nat
deriving DecidableEq

/-- Model of `paginator.SetTotalPages(items)`: for `items >= 1` set
`TotalPages` to `ceil(items/PerPage)`; otherwise change nothing. The page
index is not touched. -/
def Paginator.setTotalPages (p : Paginator) (items : Nat) : Paginator :=
  if items < 1 then p
  else { p with TotalPages := items / p.PerPage + (if items % p.PerPage > 0 then 1 else 0) }

/-- Model of `paginator.PrevPage` (the `left` key). -/
def Paginator.prevPage (p : Paginator) : Paginator :=
  if p.Page > 0 then { p with Page := p.Page - 1 } else p

/-- Model of `paginator.NextPage` (the `right` key): advance unless on the
last page (`Page == TotalPages-1`). -/
def Paginator.nextPage (p : Paginator) : Paginator :=
  if p.Page = p.TotalPages - 1 then p else { p with Page := p.Page + 1 }

/-- Model of `paginator.GetSliceBounds(length)`. -/
def Paginator.getSliceBounds (p : Paginator) (length : Nat) : Nat × Nat :=
  (p.Page * p.PerPage, min (p.Page * p.PerPage + p.PerPage) length)

/-- Model of the fields of `model` that the engine reads and writes; the
text input is carried as its visible value. -/
structure AppModel where
  Nodes : List Node
  TotalLabelKeys : List LabelKey
  FilteredLabelKeys : List LabelKey
  filteredNodeInfos : NodeInfos
  Pager : Paginator
  TextValue : String
deriving DecidableEq

/-- Model of the Go map write `nodeInfos[node.Name] = []LabelValue{}`:
set the entry for `name`, creating it when absent. -/
def setEntry (infos : NodeInfos) (name : String) (vals : List LabelValue) : NodeInfos :=
  match infos with
  | [] => [(name, vals)]
  | (n, vs) :: rest =>
      if n = name then (n, vals) :: rest else (n, vs) :: setEntry rest name vals

/-- Model of `InitialModel` after the cluster listing returned `nodes`:
catalogue recomputed, every node mapped to an empty value list, all keys
filtered, paginator seeded with `PerPage = 10` and
`SetTotalPages(len(TotalLabelKeys))` from the widget's initial
`Page = 0, TotalPages = 1`. -/
def InitialModel (nodes : List Node) : AppModel :=
  let total := updateTotalLabelKeys nodes
  { Nodes := nodes
    TotalLabelKeys := total
    FilteredLabelKeys := total
    filteredNodeInfos := nodes.foldl (fun acc node => setEntry acc node.Name []) []
    Pager := Paginator.setTotalPages { Page := 0, PerPage := 10, TotalPages := 1 } total.length
    TextValue := "" }

/-- Messages `(*model).Update` distinguishes: quit, the two pagination
keys, and any other message, which is handed to the text input and carries
the input's resulting value. -/
inductive Msg where
  | ctrlC
  | left
  | right
  | text (value : String)

/-- Model of `(*model).Update`: pagination keys only move the paginator and
return early; `ctrl+c` quits with the model unchanged; any other message
re-derives the filtered keys from the full catalogue, rebuilds the
projection, and recomputes the total page count. -/
def update (m : AppModel) (msg : Msg) : AppModel :=
  match msg with
  | .ctrlC => m
  | .left => { m with Pager := m.Pager.prevPage }
  | .right => { m with Pager := m.Pager.nextPage }
  | .text value =>
      let fk := FuzzyFindLabelKeys value m.TotalLabelKeys
      { m with TextValue := value
               FilteredLabelKeys := fk
               filteredNodeInfos := filterNodeInfos fk m.Nodes
               Pager := m.Pager.setTotalPages fk.length }

/-- Model of the bounds `View` obtains before slicing
`m.FilteredLabelKeys[start:end]`. -/
def viewSliceBounds (m : AppModel) : Nat × Nat :=
  m.Pager.getSliceBounds m.FilteredLabelKeys.length

/-- Statement of the spec's projection invariant over a view-model: a node
with a matching label key has a row of exactly the filtered-key count, a
node without one has no row. -/
def projectionOk (filteredKeys : List LabelKey) (nodes : List Node) (infos : NodeInfos) : Prop :=
  ∀ node ∈ nodes,
    (nodeMatches filteredKeys node = true →
      ∃ row, infos.lookup node.Name = some row ∧ row.length = filteredKeys.length) ∧
    (nodeMatches filteredKeys node = false → infos.lookup node.Name = none)

/-! ## Basic lemmas -/

theorem fuzzyMatch_empty_source (t : String) : fuzzyMatch "" t = true := by
  have h : ("" : String).toList = [] := rfl
  unfold fuzzyMatch
  rw [h]
  cases t.toList <;> rfl

/-- C7: filtering the catalogue with the empty query returns the catalogue
itself, in catalogue order. -/
theorem claim_C7 (catalogue : List LabelKey) :
    FuzzyFindLabelKeys "" catalogue = catalogue := by
  unfold FuzzyFindLabelKeys
  exact List.filter_eq_self.mpr (fun key _ => fuzzyMatch_empty_source key.Name)

/-- C10: the projection builds the same `LabelValue` — value `""`, rendered
as the `"<None>"` placeholder — for a node that lacks a filtered key and
for a node that has that key with an empty-string value, so the two
situations are indistinguishable in the projection and its rendering. -/
theorem claim_C10 (labels₁ labels₂ : List (String × String)) (key : LabelKey)
    (h₁ : labels₁.lookup key.Name = none) (h₂ : labels₂.lookup key.Name = some "") :
    nodeLabelValue labels₁ key = nodeLabelValue labels₂ key ∧
    (nodeLabelValue labels₁ key).Render = "<None>" ∧
    (nodeLabelValue labels₂ key).Render = "<None>" := by
  unfold nodeLabelValue
  rw [h₁, h₂]
  exact ⟨rfl, rfl, rfl⟩

theorem claim_C10_witness :
    (([] : List (String × String)).lookup "k" = none ∧
      [("k", "")].lookup (NewLabelKey.WithName "k").Name = some "") ∧
    nodeLabelValue [] (NewLabelKey.WithName "k")
      = nodeLabelValue [("k", "")] (NewLabelKey.WithName "k") ∧
    (nodeLabelValue [] (NewLabelKey.WithName "k")).Render = "<None>" ∧
    (nodeLabelValue [("k", "")] (NewLabelKey.WithName "k")).Render = "<None>" :=
  ⟨⟨by decide, by decide⟩,
   claim_C10 [] [("k", "")] (NewLabelKey.WithName "k") (by decide) (by decide)⟩

/-- C5 counterexample: applying `Added` twice for the same name does not
overwrite — the name ends up stored twice, refuting "each node name occurs
at most once in the index's node list after any sequence of add events". -/
theorem claim_C5_counterexample :
    ((AddFunc (AddFunc [] ⟨"a", []⟩) ⟨"a", []⟩).map Node.Name) = ["a", "a"] ∧
    ¬ ((AddFunc (AddFunc [] ⟨"a", []⟩) ⟨"a", []⟩).map Node.Name).Nodup := by
  constructor
  · rfl
  · decide

/-- C5 amended: `AddFunc` appends the node unconditionally, never
overwriting; after an add event a name occurs once more than before, so a
name added while already present occurs twice. -/
theorem claim_C5 (nodes : List Node) (node : Node) :
    AddFunc nodes node = nodes ++ [node] ∧
    ∀ s : String, ((AddFunc nodes node).map Node.Name).count s =
      ((nodes.map Node.Name).count s) + (if node.Name = s then 1 else 0) := by
  refine ⟨rfl, fun s => ?_⟩
  unfold AddFunc
  rw [List.map_append, List.count_append]
  simp [List.count_singleton', eq_comm]

theorem DeleteFunc_of_not_mem (nodes : List Node) (node : Node)
    (h : node.Name ∉ nodes.map Node.Name) : DeleteFunc nodes node = nodes := by
  induction nodes with
  | nil => rfl
  | cons n rest ih =>
      simp only [List.map_cons, List.mem_cons, not_or] at h
      rw [DeleteFunc, if_neg (fun e => h.1 e.symm), ih h.2]

theorem UpdateFunc_of_not_mem (nodes : List Node) (node : Node)
    (h : node.Name ∉ nodes.map Node.Name) : UpdateFunc nodes node = nodes := by
  induction nodes with
  | nil => rfl
  | cons n rest ih =>
      simp only [List.map_cons, List.mem_cons, not_or] at h
      rw [UpdateFunc, if_neg (fun e => h.1 e.symm), ih h.2]

/-- C6: a `Deleted` event for an unknown name and an `Updated` event for an
unknown name both leave the node list unchanged, and the recomputed key
catalogue is unchanged as well. -/
theorem claim_C6 (nodes : List Node) (node : Node)
    (h : node.Name ∉ nodes.map Node.Name) :
    DeleteFunc nodes node = nodes ∧ UpdateFunc nodes node = nodes ∧
    updateTotalLabelKeys (DeleteFunc nodes node) = updateTotalLabelKeys nodes ∧
    updateTotalLabelKeys (UpdateFunc nodes node) = updateTotalLabelKeys nodes := by
  have hd := DeleteFunc_of_not_mem nodes node h
  have hu := UpdateFunc_of_not_mem nodes node h
  exact ⟨hd, hu, by rw [hd], by rw [hu]⟩

theorem claim_C6_witness :
    ((⟨"b", []⟩ : Node).Name ∉ ([⟨"a", [("k", "v")]⟩] : List Node).map Node.Name) ∧
    (DeleteFunc [⟨"a", [("k", "v")]⟩] ⟨"b", []⟩ = [⟨"a", [("k", "v")]⟩] ∧
      UpdateFunc [⟨"a", [("k", "v")]⟩] ⟨"b", []⟩ = [⟨"a", [("k", "v")]⟩] ∧
      updateTotalLabelKeys (DeleteFunc [⟨"a", [("k", "v")]⟩] ⟨"b", []⟩)
        = updateTotalLabelKeys [⟨"a", [("k", "v")]⟩] ∧
      updateTotalLabelKeys (UpdateFunc [⟨"a", [("k", "v")]⟩] ⟨"b", []⟩)
        = updateTotalLabelKeys [⟨"a", [("k", "v")]⟩]) :=
  ⟨by decide, claim_C6 [⟨"a", [("k", "v")]⟩] ⟨"b", []⟩ (by decide)⟩

/-! ## Subsequence characterisation of the fuzzy matcher -/

theorem isSubseqChars_of_cons (t : List Char) :
    ∀ (s : List Char) (c : Char), isSubseqChars (c :: s) t = true → isSubseqChars s t = true := by
  induction t with
  | nil => intro s c h; exact absurd h (by simp [isSubseqChars])
  | cons b t ih =>
      intro s c h
      rw [isSubseqChars] at h
      cases s with
      | nil => rfl
      | cons d s' =>
          rw [isSubseqChars]
          by_cases hdb : d = b
          · rw [if_pos hdb]
            by_cases hcb : c = b
            · rw [if_pos hcb] at h
              exact ih s' d (hdb ▸ h)
            · rw [if_neg hcb] at h
              exact ih s' d (hdb ▸ ih (d :: s') c h)
          · rw [if_neg hdb]
            by_cases hcb : c = b
            · rw [if_pos hcb] at h
              exact h
            · rw [if_neg hcb] at h
              exact ih (d :: s') c h

theorem sublist_of_isSubseqChars :
    ∀ (t s : List Char), isSubseqChars s t = true → s.Sublist t := by
  intro t
  induction t with
  | nil =>
      intro s h
      cases s with
      | nil => exact List.Sublist.refl []
      | cons a s' => exact absurd h (by simp [isSubseqChars])
  | cons b t ih =>
      intro s h
      cases s with
      | nil => exact List.nil_sublist _
      | cons a s' =>
          rw [isSubseqChars] at h
          by_cases hab : a = b
          · rw [if_pos hab] at h
            exact hab ▸ List.Sublist.cons₂ a (ih s' h)
          · rw [if_neg hab] at h
            exact List.Sublist.cons b (ih (a :: s') h)

theorem isSubseqChars_of_sublist {s t : List Char} (h : s.Sublist t) :
    isSubseqChars s t = true := by
  induction h with
  | slnil => rfl
  | @cons s t b _ ih =>
      cases s with
      | nil => rfl
      | cons c s' =>
          rw [isSubseqChars]
          by_cases hcb : c = b
          · rw [if_pos hcb]
            exact isSubseqChars_of_cons t s' c ih
          · rw [if_neg hcb]
            exact ih
  | @cons₂ s t a _ ih => simpa [isSubseqChars] using ih

/-- Correctness of the embedded `fuzzy.Match`: the greedy scan accepts
exactly the rune subsequences. -/
theorem fuzzyMatch_iff_sublist (source target : String) :
    fuzzyMatch source target = true ↔ source.toList.Sublist target.toList :=
  ⟨sublist_of_isSubseqChars target.toList source.toList, isSubseqChars_of_sublist⟩

/-- C8: every key returned by the fuzzy filter has the query as a
case-sensitive character subsequence of its name; the result is a
sublist of the catalogue (hence a subset, in catalogue order) with no
duplicate key names; an empty catalogue yields an empty result. -/
theorem claim_C8 (q : String) (catalogue : List LabelKey)
    (h : (catalogue.map LabelKey.Name).Nodup) :
    (∀ key ∈ FuzzyFindLabelKeys q catalogue, q.toList.Sublist key.Name.toList) ∧
    (FuzzyFindLabelKeys q catalogue).Sublist catalogue ∧
    ((FuzzyFindLabelKeys q catalogue).map LabelKey.Name).Nodup ∧
    (catalogue = [] → FuzzyFindLabelKeys q catalogue = []) := by
  refine ⟨?_, ?_, ?_, ?_⟩
  · intro key hk
    have hk' : key ∈ catalogue.filter (fun k => fuzzyMatch q k.Name) := hk
    exact (fuzzyMatch_iff_sublist q key.Name).mp (List.mem_filter.mp hk').2
  · exact List.filter_sublist catalogue
  · exact h.sublist (List.Sublist.map LabelKey.Name (List.filter_sublist catalogue))
  · intro he
    rw [he]
    rfl

theorem claim_C8_witness :
    (([NewLabelKey.WithName "env", NewLabelKey.WithName "zone"].map LabelKey.Name).Nodup) ∧
    ((∀ key ∈ FuzzyFindLabelKeys "z" [NewLabelKey.WithName "env", NewLabelKey.WithName "zone"],
        ("z" : String).toList.Sublist key.Name.toList) ∧
      (FuzzyFindLabelKeys "z" [NewLabelKey.WithName "env", NewLabelKey.WithName "zone"]).Sublist
        [NewLabelKey.WithName "env", NewLabelKey.WithName "zone"] ∧
      ((FuzzyFindLabelKeys "z"
        [NewLabelKey.WithName "env", NewLabelKey.WithName "zone"]).map LabelKey.Name).Nodup ∧
      ([NewLabelKey.WithName "env", NewLabelKey.WithName "zone"] = ([] : List LabelKey) →
        FuzzyFindLabelKeys "z" [NewLabelKey.WithName "env", NewLabelKey.WithName "zone"] = [])) :=
  ⟨by decide, claim_C8 "z" [NewLabelKey.WithName "env", NewLabelKey.WithName "zone"] (by decide)⟩

/-! ## Correctness of the projection builder -/

theorem lookup_eq_none_of_not_mem {β : Type} (name : String) :
    ∀ l : List (String × β), name ∉ l.map Prod.fst → l.lookup name = none := by
  intro l
  induction l with
  | nil => intro _; rfl
  | cons p rest ih =>
      intro h
      obtain ⟨k, v⟩ := p
      simp only [List.map_cons, List.mem_cons, not_or] at h
      have hk : (name == k) = false := beq_eq_false_iff_ne.mpr h.1
      simp [List.lookup, hk, ih h.2]

theorem appendEntry_of_not_mem (name : String) (vals : List LabelValue) :
    ∀ infos : NodeInfos, name ∉ infos.map Prod.fst →
      appendEntry infos name vals = infos ++ [(name, vals)] := by
  intro infos
  induction infos with
  | nil => intro _; rfl
  | cons p rest ih =>
      intro h
      obtain ⟨n, vs⟩ := p
      simp only [List.map_cons, List.mem_cons, not_or] at h
      rw [appendEntry, if_neg (fun e => h.1 e.symm), ih h.2]
      rfl

theorem foldl_filterNodeInfos (keys : List LabelKey) :
    ∀ (nodes : List Node) (acc : NodeInfos),
      (nodes.map Node.Name).Nodup →
      (∀ n ∈ nodes, n.Name ∉ acc.map Prod.fst) →
      nodes.foldl
        (fun acc node =>
          if nodeMatches keys node then
            appendEntry acc node.Name (keys.map (fun key => nodeLabelValue node.Labels key))
          else acc) acc
      = acc ++ (nodes.filter (fun n => nodeMatches keys n)).map
          (fun n => (n.Name, keys.map (fun key => nodeLabelValue n.Labels key))) := by
  intro nodes
  induction nodes with
  | nil => intro acc _ _; simp
  | cons n rest ih =>
      intro acc hnd hacc
      rw [List.foldl_cons]
      rw [List.map_cons, List.nodup_cons] at hnd
      cases hm : nodeMatches keys n with
      | false =>
          rw [if_neg (by simp [hm]), List.filter_cons_of_neg (by simp [hm])]
          exact ih acc hnd.2 (fun m hm' => hacc m (List.mem_cons_of_mem n hm'))
      | true =>
          rw [if_pos (by simp [hm])]
          rw [appendEntry_of_not_mem _ _ acc (hacc n (List.mem_cons_self n rest))]
          rw [List.filter_cons_of_pos (by simp [hm]), List.map_cons]
          rw [ih (acc ++ [(n.Name, keys.map (fun key => nodeLabelValue n.Labels key))]) hnd.2 ?_]
          · rw [List.append_assoc]
            rfl
          · intro m hm'
            simp only [List.map_append, List.mem_append, not_or, List.map_cons]
            refine ⟨hacc m (List.mem_cons_of_mem n hm'), ?_⟩
            intro hcontra
            have hmn : m.Name = n.Name := by simpa using hcontra
            exact hnd.1 (hmn ▸ List.mem_map_of_mem Node.Name hm')

theorem filterNodeInfos_eq (keys : List LabelKey) (nodes : List Node)
    (hnd : (nodes.map Node.Name).Nodup) :
    filterNodeInfos keys nodes
      = (nodes.filter (fun n => nodeMatches keys n)).map
          (fun n => (n.Name, keys.map (fun key => nodeLabelValue n.Labels key))) := by
  unfold filterNodeInfos
  simpa using foldl_filterNodeInfos keys nodes [] hnd (by simp)

theorem lookup_projection (keys : List LabelKey) :
    ∀ nodes : List Node, (nodes.map Node.Name).Nodup →
      ∀ node ∈ nodes,
        ((nodes.filter (fun n => nodeMatches keys n)).map
            (fun n => (n.Name, keys.map (fun key => nodeLabelValue n.Labels key)))).lookup node.Name
        = if nodeMatches keys node then
            some (keys.map (fun key => nodeLabelValue node.Labels key))
          else none := by
  intro nodes
  induction nodes with
  | nil => intro _ node hmem; exact absurd hmem (List.not_mem_nil node)
  | cons n rest ih =>
      intro hnd node hmem
      rw [List.map_cons, List.nodup_cons] at hnd
      rcases List.mem_cons.mp hmem with rfl | hmem'
      · cases hm : nodeMatches keys node with
        | true =>
            rw [List.filter_cons_of_pos (by simp [hm]), List.map_cons]
            simp [List.lookup]
        | false =>
            rw [List.filter_cons_of_neg (by simp [hm]), if_neg (by simp)]
            apply lookup_eq_none_of_not_mem
            intro hcontra
            apply hnd.1
            simp only [List.map_map] at hcontra
            rcases List.mem_map.mp hcontra with ⟨m, hmf, hme⟩
            exact hme ▸ List.mem_map_of_mem Node.Name (List.mem_of_mem_filter hmf)
      · have hne : node.Name ≠ n.Name := by
          intro e
          exact hnd.1 (e ▸ List.mem_map_of_mem Node.Name hmem')
        have hbeq : (node.Name == n.Name) = false := beq_eq_false_iff_ne.mpr hne
        cases hm : nodeMatches keys n with
        | true =>
            rw [List.filter_cons_of_pos (by simp [hm]), List.map_cons]
            rw [show ((n.Name, keys.map (fun key => nodeLabelValue n.Labels key)) ::
              (rest.filter (fun n => nodeMatches keys n)).map
                (fun n => (n.Name, keys.map (fun key => nodeLabelValue n.Labels key)))).lookup node.Name
              = ((rest.filter (fun n => nodeMatches keys n)).map
                (fun n => (n.Name, keys.map (fun key => nodeLabelValue n.Labels key)))).lookup node.Name
              from by simp [List.lookup, hbeq]]
            exact ih hnd.2 node hmem'
        | false =>
            rw [List.filter_cons_of_neg (by simp [hm])]
            exact ih hnd.2 node hmem'

/-- C1: on a node set with unique names, the projection builder omits every
node having no label among the filtered keys, and maps every node having
at least one such label to a row of exactly one `LabelValue` per filtered
key, in filtered-key order — carrying the node's stored value for a key it
has, and the empty value (rendered `"<None>"`) for a key it lacks. -/
theorem claim_C1 (keys : List LabelKey) (nodes : List Node)
    (hnd : (nodes.map Node.Name).Nodup) (node : Node) (hmem : node ∈ nodes) :
    (nodeMatches keys node = false →
      (filterNodeInfos keys nodes).lookup node.Name = none) ∧
    (nodeMatches keys node = true →
      ∃ row, (filterNodeInfos keys nodes).lookup node.Name = some row ∧
        row.length = keys.length ∧
        List.Forall₂ (fun (key : LabelKey) (lv : LabelValue) =>
            lv.Key = key ∧
            (∀ v, node.Labels.lookup key.Name = some v → lv.Name = v) ∧
            (node.Labels.lookup key.Name = none → lv.Name = "" ∧ lv.Render = "<None>"))
          keys row) := by
  rw [filterNodeInfos_eq keys nodes hnd]
  have hl := lookup_projection keys nodes hnd node hmem
  constructor
  · intro hm
    rw [hl, if_neg (by simp [hm])]
  · intro hm
    refine ⟨keys.map (fun key => nodeLabelValue node.Labels key),
      by rw [hl, if_pos (by simp [hm])], by simp, ?_⟩
    rw [List.forall₂_map_right_iff]
    rw [List.forall₂_same]
    intro key _
    refine ⟨rfl, ?_, ?_⟩
    · intro v hv
      show ((node.Labels.lookup key.Name).getD "") = v
      rw [hv]
      rfl
    · intro hv
      constructor
      · show ((node.Labels.lookup key.Name).getD "") = ""
        rw [hv]
        rfl
      · show LabelValue.Render _ = "<None>"
        unfold LabelValue.Render
        rw [if_pos]
        show ((node.Labels.lookup key.Name).getD "") = ""
        rw [hv]
        rfl

theorem claim_C1_witness :
    ((([⟨"A", [("env", "prod"), ("zone", "us")]⟩, ⟨"B", [("env", "dev")]⟩] :
        List Node).map Node.Name).Nodup ∧
      (⟨"B", [("env", "dev")]⟩ : Node) ∈
        ([⟨"A", [("env", "prod"), ("zone", "us")]⟩, ⟨"B", [("env", "dev")]⟩] : List Node)) ∧
    ((nodeMatches [NewLabelKey.WithName "env", NewLabelKey.WithName "zone"]
        ⟨"B", [("env", "dev")]⟩ = false →
      (filterNodeInfos [NewLabelKey.WithName "env", NewLabelKey.WithName "zone"]
          [⟨"A", [("env", "prod"), ("zone", "us")]⟩, ⟨"B", [("env", "dev")]⟩]).lookup "B" = none) ∧
    (nodeMatches [NewLabelKey.WithName "env", NewLabelKey.WithName "zone"]
        ⟨"B", [("env", "dev")]⟩ = true →
      ∃ row, (filterNodeInfos [NewLabelKey.WithName "env", NewLabelKey.WithName "zone"]
          [⟨"A", [("env", "prod"), ("zone", "us")]⟩, ⟨"B", [("env", "dev")]⟩]).lookup "B"
            = some row ∧
        row.length = ([NewLabelKey.WithName "env", NewLabelKey.WithName "zone"] :
          List LabelKey).length ∧
        List.Forall₂ (fun (key : LabelKey) (lv : LabelValue) =>
            lv.Key = key ∧
            (∀ v, ([("env", "dev")] : List (String × String)).lookup key.Name = some v →
              lv.Name = v) ∧
            (([("env", "dev")] : List (String × String)).lookup key.Name = none →
              lv.Name = "" ∧ lv.Render = "<None>"))
          [NewLabelKey.WithName "env", NewLabelKey.WithName "zone"] row)) :=
  ⟨⟨by decide, by decide⟩,
    claim_C1 [NewLabelKey.WithName "env", NewLabelKey.WithName "zone"]
      [⟨"A", [("env", "prod"), ("zone", "us")]⟩, ⟨"B", [("env", "dev")]⟩]
      (by decide) ⟨"B", [("env", "dev")]⟩ (by decide)⟩

/-! ## Correctness of the key catalogue -/

theorem mem_map_name_uniqueKeysAux :
    ∀ (l : List LabelKey) (seen : List String) (s : String),
      s ∈ (uniqueKeysAux seen l).map LabelKey.Name ↔ s ∈ l.map LabelKey.Name ∧ s ∉ seen := by
  intro l
  induction l with
  | nil => intro seen s; simp [uniqueKeysAux]
  | cons key rest ih =>
      intro seen s
      rw [uniqueKeysAux]
      by_cases hk : key.Name ∈ seen
      · rw [if_pos hk, ih]
        simp only [List.map_cons, List.mem_cons]
        constructor
        · rintro ⟨h1, h2⟩
          exact ⟨Or.inr h1, h2⟩
        · rintro ⟨h1 | h1, h2⟩
          · exact absurd (h1 ▸ hk) h2
          · exact ⟨h1, h2⟩
      · rw [if_neg hk]
        rw [List.map_cons]
        constructor
        · intro h
          rcases List.mem_cons.mp h with h | h
          · exact ⟨List.mem_cons.mpr (Or.inl h), h ▸ hk⟩
          · rcases (ih (key.Name :: seen) s).mp h with ⟨h1, h2⟩
            exact ⟨List.mem_cons.mpr (Or.inr h1), fun hs => h2 (List.mem_cons_of_mem _ hs)⟩
        · rintro ⟨h1, h2⟩
          rcases List.mem_cons.mp h1 with h | h
          · exact List.mem_cons.mpr (Or.inl h)
          · by_cases hs : s = key.Name
            · exact List.mem_cons.mpr (Or.inl hs)
            · refine List.mem_cons.mpr (Or.inr ((ih (key.Name :: seen) s).mpr ⟨h, ?_⟩))
              intro hc
              rcases List.mem_cons.mp hc with e | e
              · exact hs e
              · exact h2 e

theorem nodup_map_name_uniqueKeysAux :
    ∀ (l : List LabelKey) (seen : List String),
      ((uniqueKeysAux seen l).map LabelKey.Name).Nodup := by
  intro l
  induction l with
  | nil => intro seen; simp [uniqueKeysAux]
  | cons key rest ih =>
      intro seen
      rw [uniqueKeysAux]
      by_cases hk : key.Name ∈ seen
      · rw [if_pos hk]
        exact ih seen
      · rw [if_neg hk]
        rw [List.map_cons, List.nodup_cons]
        refine ⟨?_, ih _⟩
        intro hc
        rcases (mem_map_name_uniqueKeysAux rest (key.Name :: seen) key.Name).mp hc with ⟨_, h2⟩
        exact h2 (List.mem_cons_self _ _)

theorem mem_of_mem_uniqueKeysAux :
    ∀ (l : List LabelKey) (seen : List String) (a : LabelKey),
      a ∈ uniqueKeysAux seen l → a ∈ l := by
  intro l
  induction l with
  | nil =>
      intro seen a h
      rw [uniqueKeysAux] at h
      exact absurd h (List.not_mem_nil a)
  | cons key rest ih =>
      intro seen a h
      rw [uniqueKeysAux] at h
      by_cases hk : key.Name ∈ seen
      · rw [if_pos hk] at h
        exact List.mem_cons_of_mem key (ih seen a h)
      · rw [if_neg hk] at h
        rcases List.mem_cons.mp h with e | h'
        · exact e ▸ List.mem_cons_self key rest
        · exact List.mem_cons_of_mem key (ih _ a h')

theorem strLtb_of_not_gt_of_ne {a b : String}
    (h1 : charListLtb b.data a.data = false) (h2 : a ≠ b) :
    charListLtb a.data b.data = true := by
  cases h : charListLtb a.data b.data with
  | true => rfl
  | false => exact absurd (string_eq_of_data_eq (charListLtb_eq_of_not _ _ h h1)) h2

theorem pairwise_lt_of_le_ne {l : List String}
    (h1 : l.Pairwise (fun a b => charListLtb b.data a.data = false))
    (h2 : l.Pairwise (· ≠ ·)) :
    l.Pairwise (fun a b => charListLtb a.data b.data = true) := by
  induction l with
  | nil => exact List.Pairwise.nil
  | cons a t ih =>
      rcases List.pairwise_cons.mp h1 with ⟨ha1, ht1⟩
      rcases List.pairwise_cons.mp h2 with ⟨ha2, ht2⟩
      exact List.pairwise_cons.mpr
        ⟨fun b hb => strLtb_of_not_gt_of_ne (ha1 b hb) (ha2 b hb), ih ht1 ht2⟩

theorem sorted_names_updateTotalLabelKeys (nodes : List Node) :
    ((updateTotalLabelKeys nodes).map LabelKey.Name).Pairwise
      (fun a b => charListLtb a.data b.data = true) := by
  unfold updateTotalLabelKeys
  have hs := List.sorted_insertionSort keyLE
    (uniqueKeys (nodes.flatMap (fun node => node.Labels.map (fun kv => NewLabelKey.WithName kv.1))))
  have hle : ((List.insertionSort keyLE
      (uniqueKeys (nodes.flatMap (fun node =>
        node.Labels.map (fun kv => NewLabelKey.WithName kv.1))))).map LabelKey.Name).Pairwise
      (fun a b => charListLtb b.data a.data = false) := by
    rw [List.pairwise_map]
    exact hs
  have hnd : ((List.insertionSort keyLE
      (uniqueKeys (nodes.flatMap (fun node =>
        node.Labels.map (fun kv => NewLabelKey.WithName kv.1))))).map LabelKey.Name).Nodup := by
    have hperm := (List.perm_insertionSort keyLE
      (uniqueKeys (nodes.flatMap (fun node =>
        node.Labels.map (fun kv => NewLabelKey.WithName kv.1))))).map LabelKey.Name
    exact hperm.nodup_iff.mpr (nodup_map_name_uniqueKeysAux _ [])
  exact pairwise_lt_of_le_ne hle hnd

theorem mem_name_updateTotalLabelKeys (nodes : List Node) (s : String) :
    s ∈ (updateTotalLabelKeys nodes).map LabelKey.Name ↔
      ∃ n ∈ nodes, s ∈ n.Labels.map Prod.fst := by
  unfold updateTotalLabelKeys
  rw [((List.perm_insertionSort keyLE _).map LabelKey.Name).mem_iff]
  rw [show uniqueKeys (nodes.flatMap (fun node =>
      node.Labels.map (fun kv => NewLabelKey.WithName kv.1)))
    = uniqueKeysAux [] (nodes.flatMap (fun node =>
      node.Labels.map (fun kv => NewLabelKey.WithName kv.1))) from rfl]
  rw [mem_map_name_uniqueKeysAux]
  simp only [List.not_mem_nil, not_false_iff, and_true]
  constructor
  · intro h
    rcases List.mem_map.mp h with ⟨a, haL, rfl⟩
    rcases List.mem_flatMap.mp haL with ⟨n, hn, ha⟩
    rcases List.mem_map.mp ha with ⟨kv, hkv, rfl⟩
    exact ⟨n, hn, List.mem_map_of_mem Prod.fst hkv⟩
  · rintro ⟨n, hn, hs⟩
    rcases List.mem_map.mp hs with ⟨kv, hkv, rfl⟩
    exact List.mem_map.mpr ⟨NewLabelKey.WithName kv.1,
      List.mem_flatMap.mpr ⟨n, hn, List.mem_map_of_mem _ hkv⟩, rfl⟩

theorem eq_withName_of_mem_updateTotalLabelKeys (nodes : List Node) (a : LabelKey)
    (ha : a ∈ updateTotalLabelKeys nodes) : a = NewLabelKey.WithName a.Name := by
  unfold updateTotalLabelKeys at ha
  have ha2 := (List.perm_insertionSort keyLE _).mem_iff.mp ha
  have ha3 := mem_of_mem_uniqueKeysAux _ [] a ha2
  rcases List.mem_flatMap.mp ha3 with ⟨n, _, hin⟩
  rcases List.mem_map.mp hin with ⟨kv, _, he⟩
  subst he
  rfl

theorem eq_of_map_name_eq :
    ∀ l₁ l₂ : List LabelKey,
      l₁.map LabelKey.Name = l₂.map LabelKey.Name →
      (∀ a ∈ l₁, a = NewLabelKey.WithName a.Name) →
      (∀ a ∈ l₂, a = NewLabelKey.WithName a.Name) → l₁ = l₂ := by
  intro l₁
  induction l₁ with
  | nil =>
      intro l₂ h _ _
      cases l₂ with
      | nil => rfl
      | cons b t₂ => exact absurd h (by simp)
  | cons a t ih =>
      intro l₂ h h1 h2
      cases l₂ with
      | nil => exact absurd h (by simp)
      | cons b t₂ =>
          simp only [List.map_cons, List.cons.injEq] at h
          have hab : a = b := by
            rw [h1 a (List.mem_cons_self a t), h2 b (List.mem_cons_self b t₂), h.1]
          rw [hab, ih t₂ h.2 (fun x hx => h1 x (List.mem_cons_of_mem a hx))
            (fun x hx => h2 x (List.mem_cons_of_mem b hx))]

theorem ne_of_strLtb {a b : String} (h : charListLtb a.data b.data = true) : a ≠ b := by
  intro e
  rw [e, charListLtb_irrefl] at h
  exact Bool.noConfusion h

theorem eq_of_pairwise_lt_of_mem_iff (l₁ l₂ : List String)
    (h₁ : l₁.Pairwise (fun a b => charListLtb a.data b.data = true))
    (h₂ : l₂.Pairwise (fun a b => charListLtb a.data b.data = true))
    (hm : ∀ s, s ∈ l₁ ↔ s ∈ l₂) : l₁ = l₂ := by
  haveI : IsAntisymm String (fun a b => charListLtb a.data b.data = true) := by
    refine ⟨fun a b h h' => ?_⟩
    rw [charListLtb_asymm _ _ h] at h'
    exact Bool.noConfusion h'
  have hnd₁ : l₁.Nodup := h₁.imp (fun h => ne_of_strLtb h)
  have hnd₂ : l₂.Nodup := h₂.imp (fun h => ne_of_strLtb h)
  exact List.eq_of_perm_of_sorted ((List.perm_ext_iff_of_nodup hnd₁ hnd₂).mpr hm) h₁ h₂

/-- C2: the recomputed key catalogue carries lexicographically strictly
increasing (hence duplicate-free, case-sensitively sorted — `charListLtb`
is the character-wise lexicographic comparison) key names, its names are
exactly the label keys occurring in some node's labels, and the catalogue
is invariant under reordering of the node set. -/
theorem claim_C2 (nodes : List Node) :
    ((updateTotalLabelKeys nodes).map LabelKey.Name).Pairwise
      (fun a b => charListLtb a.data b.data = true) ∧
    (∀ s : String, s ∈ (updateTotalLabelKeys nodes).map LabelKey.Name ↔
      ∃ n ∈ nodes, s ∈ n.Labels.map Prod.fst) ∧
    (∀ nodes' : List Node, nodes.Perm nodes' →
      updateTotalLabelKeys nodes = updateTotalLabelKeys nodes') := by
  refine ⟨sorted_names_updateTotalLabelKeys nodes, mem_name_updateTotalLabelKeys nodes, ?_⟩
  intro nodes' hp
  apply eq_of_map_name_eq
  · apply eq_of_pairwise_lt_of_mem_iff _ _
      (sorted_names_updateTotalLabelKeys nodes) (sorted_names_updateTotalLabelKeys nodes')
    intro s
    rw [mem_name_updateTotalLabelKeys, mem_name_updateTotalLabelKeys]
    constructor
    · rintro ⟨n, hn, h⟩
      exact ⟨n, hp.mem_iff.mp hn, h⟩
    · rintro ⟨n, hn, h⟩
      exact ⟨n, hp.mem_iff.mpr hn, h⟩
  · exact fun a ha => eq_withName_of_mem_updateTotalLabelKeys nodes a ha
  · exact fun a ha => eq_withName_of_mem_updateTotalLabelKeys nodes' a ha

theorem claim_C2_witness :
    (([⟨"A", [("env", "prod"), ("zone", "us")]⟩, ⟨"B", [("env", "dev")]⟩] : List Node).Perm
      [⟨"B", [("env", "dev")]⟩, ⟨"A", [("env", "prod"), ("zone", "us")]⟩]) ∧
    updateTotalLabelKeys [⟨"A", [("env", "prod"), ("zone", "us")]⟩, ⟨"B", [("env", "dev")]⟩]
      = updateTotalLabelKeys [⟨"B", [("env", "dev")]⟩, ⟨"A", [("env", "prod"), ("zone", "us")]⟩] :=
  ⟨by decide,
    (claim_C2 [⟨"A", [("env", "prod"), ("zone", "us")]⟩, ⟨"B", [("env", "dev")]⟩]).2.2
      [⟨"B", [("env", "dev")]⟩, ⟨"A", [("env", "prod"), ("zone", "us")]⟩] (by decide)⟩

/-! ## The interaction-loop claims -/

/-- C3 counterexample: in the state `InitialModel` produces (before any
keystroke), every node is mapped to the empty value list — so a node with
a label among the filtered keys (here all catalogue keys) has a row of
length `0`, not `len(filteredKeys) = 1`, refuting the claimed invariant at
the initial state. -/
theorem claim_C3_counterexample :
    ¬ projectionOk (InitialModel [⟨"a", [("k", "v")]⟩]).FilteredLabelKeys
        (InitialModel [⟨"a", [("k", "v")]⟩]).Nodes
        (InitialModel [⟨"a", [("k", "v")]⟩]).filteredNodeInfos := by
  intro h
  rcases (h ⟨"a", [("k", "v")]⟩ (by decide)).1 (by decide) with ⟨row, hrow, hlen⟩
  have hrow' : some ([] : List LabelValue) = some row := by
    rw [← hrow]
    decide
  obtain rfl := Option.some.inj hrow'
  exact absurd hlen (by decide)

/-- C3 amended: the projection invariant — every node with at least one
filtered label key mapped to a row of exactly the filtered-key count,
every other node absent — holds of the state produced by every `Update`
step that handles a text-input message (node names unique); the initial
state instead maps every node, matching or not, to the empty list. -/
theorem claim_C3 (m : AppModel) (value : String)
    (hnd : (m.Nodes.map Node.Name).Nodup) :
    projectionOk (update m (.text value)).FilteredLabelKeys
      (update m (.text value)).Nodes
      (update m (.text value)).filteredNodeInfos := by
  show projectionOk (FuzzyFindLabelKeys value m.TotalLabelKeys) m.Nodes
    (filterNodeInfos (FuzzyFindLabelKeys value m.TotalLabelKeys) m.Nodes)
  intro node hmem
  have hl : (filterNodeInfos (FuzzyFindLabelKeys value m.TotalLabelKeys) m.Nodes).lookup node.Name
      = if nodeMatches (FuzzyFindLabelKeys value m.TotalLabelKeys) node then
          some ((FuzzyFindLabelKeys value m.TotalLabelKeys).map
            (fun key => nodeLabelValue node.Labels key))
        else none := by
    rw [filterNodeInfos_eq (FuzzyFindLabelKeys value m.TotalLabelKeys) m.Nodes hnd]
    exact lookup_projection (FuzzyFindLabelKeys value m.TotalLabelKeys) m.Nodes hnd node hmem
  constructor
  · intro hm
    exact ⟨(FuzzyFindLabelKeys value m.TotalLabelKeys).map
        (fun key => nodeLabelValue node.Labels key),
      by rw [hl, if_pos (by simp [hm])], by simp⟩
  · intro hm
    rw [hl, if_neg (by simp [hm])]

theorem claim_C3_witness :
    (((InitialModel [⟨"a", [("k", "v")]⟩]).Nodes.map Node.Name).Nodup) ∧
    projectionOk (update (InitialModel [⟨"a", [("k", "v")]⟩]) (.text "")).FilteredLabelKeys
      (update (InitialModel [⟨"a", [("k", "v")]⟩]) (.text "")).Nodes
      (update (InitialModel [⟨"a", [("k", "v")]⟩]) (.text "")).filteredNodeInfos :=
  ⟨by decide, claim_C3 (InitialModel [⟨"a", [("k", "v")]⟩]) "" (by decide)⟩

/-- Single node carrying 25 label keys `a01` … `a25`: a 3-page catalogue at
10 keys per page. -/
def nodesC4 : List Node :=
  [⟨"n1", [("a01", "v"), ("a02", "v"), ("a03", "v"), ("a04", "v"), ("a05", "v"),
           ("a06", "v"), ("a07", "v"), ("a08", "v"), ("a09", "v"), ("a10", "v"),
           ("a11", "v"), ("a12", "v"), ("a13", "v"), ("a14", "v"), ("a15", "v"),
           ("a16", "v"), ("a17", "v"), ("a18", "v"), ("a19", "v"), ("a20", "v"),
           ("a21", "v"), ("a22", "v"), ("a23", "v"), ("a24", "v"), ("a25", "v")]⟩]

/-- State after paging right twice (to page 2 of 3) and then typing a query
matching exactly one key. -/
def finalC4 : AppModel :=
  update (update (update (InitialModel nodesC4) .right) .right) (.text "a01")

/-- C4: refuted by the code — `Update` recomputes the total page count via
`SetTotalPages` after a filter change but never clamps the page index:
from page 2 of a 25-key catalogue, filtering down to one key leaves
`Page = 2` with `TotalPages = 1` and a nonzero filtered-key count, so the
current page index is not below the recomputed page count. -/
theorem claim_C4_bug :
    finalC4.FilteredLabelKeys.length = 1 ∧
    finalC4.Pager.TotalPages = 1 ∧
    finalC4.Pager.Page = 2 ∧
    ¬ finalC4.Pager.Page < finalC4.Pager.TotalPages := by
  decide

/-- Single node carrying 11 label keys `a01` … `a11`: a 2-page catalogue at
10 keys per page. -/
def nodesC9 : List Node :=
  [⟨"n1", [("a01", "v"), ("a02", "v"), ("a03", "v"), ("a04", "v"), ("a05", "v"),
           ("a06", "v"), ("a07", "v"), ("a08", "v"), ("a09", "v"), ("a10", "v"),
           ("a11", "v")]⟩]

/-- State after paging right once (to page 1 of 2) and then typing a query
matching exactly one key. -/
def finalC9 : AppModel :=
  update (update (InitialModel nodesC9) .right) (.text "a01")

/-- C9: refuted by the code — after paging right on an 11-key catalogue and
then filtering down to one key, `View` obtains slice bounds
`start = 10, end = 1` for the 1-element filtered key list, so
`start ≤ end` fails and the Go slice expression
`m.FilteredLabelKeys[start:end]` panics. -/
theorem claim_C9_bug :
    finalC9.FilteredLabelKeys.length = 1 ∧
    viewSliceBounds finalC9 = (10, 1) ∧
    ¬ (viewSliceBounds finalC9).1 ≤ (viewSliceBounds finalC9).2 := by
  decide

end ViewLabels
